import Mathlib

/-!
Shallow embedding of the `cartesian` crate (src/src/lib.rs).

The crate provides:
  * a trait `TuplePrepend<T>` with `fn prepend(self, t: T)`, implemented manually for
    the empty tuple `()` and, through the recursive macro `_impl_tuple_prepend!`,
    for every tuple built from a suffix of the 26 identifiers `A B ... Z`;
  * the `cartesian!` macro with four rules:
      - `($head $(,)?)`                => `$head.into_iter()`
      - `($head, $tail $(,)?)`         => `cartesian!(@ $head.into_iter(), $tail.into_iter())`
      - `($head $(, $tail)+ $(,)?)`    => `cartesian!(@ $head.into_iter(), cartesian!($($tail),+))
                                             .map(|(head, tail)| tail.prepend(head))`
      - `(@ $head, $tail $(,)?)`       => `$head.flat_map(|h| $tail.map(move |t| (h, t)))`.

Sequences are modelled as Lean lists; a producer instantiates to the same list each
time (pure producers).  Heterogeneous Rust tuples are modelled two ways: as the
dependent type `Tup` indexed by the list of component types (faithful to the typed
trait), and, inside the homogeneous product embedding, as Lean lists of a fixed
element type whose length is the arity.
-/

/-- Identifiers fed to the recursive impl-generating macro in the source:
`_impl_tuple_prepend!(( A B C D E F G H I J K L M N O P Q R S T U V W X Y Z ));`. -/
def implLetters : List Char :=
  ['A', 'B', 'C', 'D', 'E', 'F', 'G', 'H', 'I', 'J', 'K', 'L', 'M',
   'N', 'O', 'P', 'Q', 'R', 'S', 'T', 'U', 'V', 'W', 'X', 'Y', 'Z']

/-- Model of the macro `_impl_tuple_prepend!`: matching `(())` generates nothing, and
matching `(($t:ident $($typ:ident)*))` generates one `TuplePrepend` impl for the tuple
type `($t, $($typ,)*)` (arity = number of identifiers) and recurses on `(($($typ)*))`.
The returned list collects the tuple arity of each generated impl. -/
def _impl_tuple_prepend : List Char → List Nat
  | [] => []
  | t :: typs => (t :: typs).length :: _impl_tuple_prepend typs

/-- Tuple arities for which a `TuplePrepend` impl exists in the source: the manual
`impl<T> TuplePrepend<T> for ()` (arity 0) plus the macro-generated impls. -/
def tuplePrependArities : List Nat :=
  0 :: _impl_tuple_prepend implLetters

/-- Heterogeneous tuple indexed by the list of its component types, the model of a
Rust tuple `(T1, ..., Tk)`. -/
inductive Tup : List Type → Type 1 where
  | nil : Tup []
  | cons : {T : Type} → {Ts : List Type} → T → Tup Ts → Tup (T :: Ts)

/-- Model of `TuplePrepend::prepend`: `fn prepend(self, t: TT)` destructures the tuple
`self = (A, B, ...)` and rebuilds `(t, A, B, ...)`, the value first. -/
def Tup.prepend {Ts : List Type} {TT : Type} (self : Tup Ts) (t : TT) : Tup (TT :: Ts) :=
  Tup.cons t self

/-- Arity of a tuple: the number of its components. -/
def Tup.arity {Ts : List Type} (_ : Tup Ts) : Nat := Ts.length

/-- First component of a nonempty tuple. -/
def Tup.fst {T : Type} {Ts : List Type} : Tup (T :: Ts) → T
  | .cons a _ => a

/-- Tuple of all components after the first of a nonempty tuple. -/
def Tup.rest {T : Type} {Ts : List Type} : Tup (T :: Ts) → Tup Ts
  | .cons _ r => r

/-- Constant tuple with `n` components, all `0 : Nat`; used to exhibit concrete
tuples of a given arity. -/
def constTup : (n : Nat) → Tup (List.replicate n Nat)
  | 0 => Tup.nil
  | n + 1 => Tup.cons 0 (constTup n)

/-- Arity-erased view of `TuplePrepend::prepend` on tuples modelled as lists:
rebuilding the tuple with the value `t` first. -/
def prependL {α : Type} (self : List α) (t : α) : List α := t :: self

/-- Model of the `@` rule of the `cartesian!` macro:
`$head.flat_map(|h| $tail.map(move |t| (h, t)))`.  The tail expression sits inside
the closure, so with pure producers each outer item sees the same tail sequence. -/
def cartesianPair {α β : Type} (xs : List α) (ys : List β) : List (α × β) :=
  xs.flatMap (fun h => ys.map (fun t => (h, t)))

/-- Model of the single-argument rule of `cartesian!`: `$head.into_iter()`, the
producer converted to its sequence, unchanged. -/
def cartesian1 {α : Type} (xs : List α) : List α := xs

/-- Model of the tuple-producing rules of `cartesian!` for producers
`xs :: ys :: rest` (at least two), over a fixed element type; a produced k-tuple is
modelled as a list of length k.  Two producers: the `@` rule directly, items `(a, b)`
(as 2-element lists).  More than two: the `@` rule pairs the head with the
recursively built product of the tail, then `.map(|(head, tail)| tail.prepend(head))`
flattens each item. -/
def cartesianTuples {α : Type} : List α → List α → List (List α) → List (List α)
  | xs, ys, [] => (cartesianPair xs ys).map (fun p => [p.1, p.2])
  | xs, ys, zs :: rest =>
      (cartesianPair xs (cartesianTuples ys zs rest)).map (fun p => prependL p.2 p.1)

/-- Model of dispatching a `cartesian!` invocation: the expression list together with
a flag recording whether a trailing comma was written.  Every rule pattern ends in
`$(,)?`, which matches and binds nothing, so no expansion depends on the flag; zero
expressions match no rule (`none`).  One expression gives the plain element sequence
(left summand), two or more give the tuple sequence (right summand). -/
def cartesianMacroExpand {α : Type} (args : List (List α)) (_trailing : Bool) :
    Option (List α ⊕ List (List α)) :=
  match args with
  | [] => none
  | [xs] => some (Sum.inl (cartesian1 xs))
  | [xs, ys] => some (Sum.inr (cartesianTuples xs ys []))
  | xs :: ys :: rest => some (Sum.inr (cartesianTuples xs ys rest))

/-- Arities of the tuples to which `prepend` is applied when `cartesian!` composes
`n` producers: the rules for fewer than three producers use no prepend; `n ≥ 3`
producers prepend onto the `(n-1)`-tuples of the recursive product of the tail. -/
def prependAritiesUsed : Nat → List Nat
  | 0 => []
  | 1 => []
  | 2 => []
  | n + 3 => (n + 2) :: prependAritiesUsed (n + 2)

/-- Composition of `n` producers typechecks exactly when every prepend the expansion
performs has a `TuplePrepend` impl at the tuple arity it is applied to. -/
def composeSupported (n : Nat) : Bool :=
  (prependAritiesUsed n).all (fun a => tuplePrependArities.contains a)

/-- Instrumented model of the `@` rule in which instantiating the right-hand
producer is observable: `inst` consumes a counter state and returns the fresh
sequence view together with the next state.  The expansion places
`$tail.map(...)` inside the `flat_map` closure, so `inst` runs once per item of the
left sequence, in order. -/
def cartesianPairInstr {α β : Type} : List α → (Nat → List β × Nat) → Nat → List (α × β) × Nat
  | [], _, n => ([], n)
  | h :: hs, inst, n =>
      let p := inst n
      let q := cartesianPairInstr hs inst p.2
      (p.1.map (fun t => (h, t)) ++ q.1, q.2)

/-- Modelled from the spec: the sequence generated by N textually nested loops in
argument order, each tuple collected as the list of loop variables outermost first
(spec, section 4.2: the reference semantics the product must reproduce). -/
def nestedLoopsSpec {α : Type} : List (List α) → List (List α)
  | [] => [[]]
  | xs :: rest => xs.flatMap (fun x => (nestedLoopsSpec rest).map (fun t => x :: t))

/-- Equivalence of the macro expansion with the spec reference semantics: the
tuple sequence for producers `xs :: ys :: rest` is the nested-loop sequence. -/
theorem cartesianTuples_eq_nested {α : Type} (xs ys : List α) (rest : List (List α)) :
    cartesianTuples xs ys rest = nestedLoopsSpec (xs :: ys :: rest) := by
  induction rest generalizing xs ys with
  | nil =>
      simp [cartesianTuples, nestedLoopsSpec, cartesianPair, List.map_flatMap,
        List.map_map, Function.comp_def, ← List.map_eq_flatMap]
  | cons zs rest ih =>
      simp [cartesianTuples, nestedLoopsSpec, cartesianPair, List.map_flatMap,
        List.map_map, Function.comp_def, ih, prependL]

/-- Length of the nested-loop sequence: the product of the producer lengths. -/
theorem length_nestedLoopsSpec {α : Type} (ps : List (List α)) :
    (nestedLoopsSpec ps).length = (ps.map List.length).prod := by
  induction ps with
  | nil => simp [nestedLoopsSpec]
  | cons xs rest ih =>
      simp [nestedLoopsSpec, List.length_flatMap, ih, List.map_map, Function.comp_def,
        List.map_const, List.sum_replicate, smul_eq_mul, Nat.mul_comm]

/-- Every tuple in the nested-loop sequence has one component per producer. -/
theorem length_mem_nestedLoopsSpec {α : Type} (ps : List (List α)) :
    ∀ t ∈ nestedLoopsSpec ps, t.length = ps.length := by
  induction ps with
  | nil => simp [nestedLoopsSpec]
  | cons xs rest ih =>
      intro t ht
      simp [nestedLoopsSpec, List.mem_flatMap, List.mem_map] at ht
      obtain ⟨x, hx, u, hu, rfl⟩ := ht
      simp [ih u hu]

/-- Strictly increasing producers give a strictly lexicographically increasing
nested-loop sequence. -/
theorem pairwise_lex_nestedLoopsSpec (ps : List (List Nat))
    (h : ∀ l ∈ ps, l.Pairwise (· < ·)) :
    (nestedLoopsSpec ps).Pairwise (List.Lex (· < ·)) := by
  induction ps with
  | nil => simp [nestedLoopsSpec]
  | cons xs rest ih =>
      rw [nestedLoopsSpec, List.pairwise_flatMap]
      constructor
      · intro a _
        exact List.Pairwise.map _ (fun t1 t2 hl => List.Lex.cons hl)
          (ih (fun l hl => h l (List.mem_cons_of_mem _ hl)))
      · have hx : xs.Pairwise (· < ·) := h xs (List.mem_cons_self _ _)
        refine hx.imp ?_
        intro a b hab x hxm y hym
        simp [List.mem_map] at hxm hym
        obtain ⟨t1, _, rfl⟩ := hxm
        obtain ⟨t2, _, rfl⟩ := hym
        exact List.Lex.rel hab

/-- Membership in the impl arity list is exactly being at most 26. -/
theorem mem_tuplePrependArities_iff (k : Nat) : k ∈ tuplePrependArities ↔ k ≤ 26 := by
  have h : tuplePrependArities =
      [0, 26, 25, 24, 23, 22, 21, 20, 19, 18, 17, 16, 15, 14, 13, 12, 11, 10,
       9, 8, 7, 6, 5, 4, 3, 2, 1] := by decide
  rw [h]
  simp only [List.mem_cons, List.not_mem_nil, or_false]
  omega

/-- Counter accounting for the instrumented pairwise product: one instantiation of
the right producer per item of the left sequence, starting from any counter value,
and the produced items are those of the pure pairwise product. -/
theorem cartesianPairInstr_pure {α β : Type} (ys : List β) (xs : List α) (n : Nat) :
    cartesianPairInstr xs (fun m => (ys, m + 1)) n = (cartesianPair xs ys, n + xs.length) := by
  induction xs generalizing n with
  | nil => simp [cartesianPairInstr, cartesianPair]
  | cons h hs ih =>
      simp [cartesianPairInstr, cartesianPair, ih]
      omega

/-- C1: for every N ≥ 1 producers with finite lengths L1..LN, the product sequence
built by the cartesian combinator yields exactly L1*...*LN items (one producer: the
pass-through rule; two or more: the tuple rules), and yields zero items whenever any
producer is empty. -/
theorem cartesian_length_product :
    (∀ (α : Type) (xs : List α), (cartesian1 xs).length = xs.length) ∧
    (∀ (α : Type) (xs ys : List α) (rest : List (List α)),
      (cartesianTuples xs ys rest).length = ((xs :: ys :: rest).map List.length).prod ∧
      ([] ∈ xs :: ys :: rest → (cartesianTuples xs ys rest).length = 0)) := by
  refine ⟨fun α xs => rfl, fun α xs ys rest => ?_⟩
  have h : (cartesianTuples xs ys rest).length = ((xs :: ys :: rest).map List.length).prod := by
    rw [cartesianTuples_eq_nested, length_nestedLoopsSpec]
  refine ⟨h, fun hmem => ?_⟩
  rw [h]
  exact List.prod_eq_zero (List.mem_map.mpr ⟨[], hmem, rfl⟩)

/-- Witness for C1 at concrete inputs: lengths 2, 1, 3 give 6 items, and an empty
first producer gives 0 items. -/
theorem cartesian_length_product_witness :
    (cartesianTuples [0, 1] [5] [[7, 8, 9]]).length = 6 ∧
    (cartesianTuples ([] : List Nat) [5] []).length = 0 := by
  constructor
  · exact ((cartesian_length_product.2 Nat [0, 1] [5] [[7, 8, 9]]).1).trans (by decide)
  · exact (cartesian_length_product.2 Nat [] [5] []).2 (by decide)

/-- C2: for N ≥ 2 producers the product enumerates tuples exactly as N textually
nested loops in argument order (first producer outermost and slowest, last producer
innermost and fastest), and for strictly increasing producers the resulting tuple
sequence is strictly lexicographically increasing. -/
theorem cartesian_lex_order :
    (∀ (α : Type) (xs ys : List α) (rest : List (List α)),
       cartesianTuples xs ys rest = nestedLoopsSpec (xs :: ys :: rest)) ∧
    (∀ (xs ys : List Nat) (rest : List (List Nat)),
       xs.Pairwise (· < ·) → ys.Pairwise (· < ·) → (∀ l ∈ rest, l.Pairwise (· < ·)) →
       (cartesianTuples xs ys rest).Pairwise (List.Lex (· < ·))) := by
  refine ⟨fun α xs ys rest => cartesianTuples_eq_nested xs ys rest, ?_⟩
  intro xs ys rest h1 h2 h3
  rw [cartesianTuples_eq_nested]
  apply pairwise_lex_nestedLoopsSpec
  intro l hl
  simp only [List.mem_cons] at hl
  rcases hl with rfl | rfl | hl
  · exact h1
  · exact h2
  · exact h3 l hl

/-- Witness for C2: two strictly increasing producers give a strictly
lexicographically increasing product. -/
theorem cartesian_lex_order_witness :
    (cartesianTuples [0, 1] [0, 1] []).Pairwise (List.Lex (· < ·)) :=
  cartesian_lex_order.2 [0, 1] [0, 1] [] (by simp) (by simp) (by simp)

/-- C3: for every value v and tuple t of arity k with 0 ≤ k ≤ 25 an impl exists,
and prepending returns a tuple of arity k+1 whose first component is v and whose
remaining components are t's components in their original order. -/
theorem tuple_prepend_contract :
    ∀ (TT : Type) (Ts : List Type), Ts.length ≤ 25 →
      Ts.length ∈ tuplePrependArities ∧
      ∀ (t : Tup Ts) (v : TT),
        (t.prepend v).arity = Ts.length + 1 ∧ (t.prepend v).fst = v ∧ (t.prepend v).rest = t := by
  intro TT Ts h
  exact ⟨(mem_tuplePrependArities_iff Ts.length).mpr (Nat.le_trans h (by decide)),
    fun t v => ⟨rfl, rfl, rfl⟩⟩

/-- Witness for C3 at the heterogeneous 2-tuple (1, true) and value 7. -/
theorem tuple_prepend_contract_witness :
    ((Tup.cons (1 : Nat) (Tup.cons true Tup.nil)).prepend (7 : Nat)).arity = 3 ∧
    ((Tup.cons (1 : Nat) (Tup.cons true Tup.nil)).prepend (7 : Nat)).fst = 7 := by
  have h := (tuple_prepend_contract Nat [Nat, Bool] (by decide)).2
    (Tup.cons (1 : Nat) (Tup.cons true Tup.nil)) 7
  exact ⟨h.1, h.2.1⟩

/-- C4 counterexample: the claim says the Tuple-Prepend family has no instance for
any arity above 25, but the impl-generating macro starts from all 26 identifiers and
therefore also generates the arity-26 instance. -/
theorem tuple_prepend_arity_cap_counterexample :
    ¬ (∀ k ∈ tuplePrependArities, k ≤ 25) := by decide

/-- C4 amended: the Tuple-Prepend operation family is defined for every tuple arity
from 0 through 26 inclusive and has no instance for any higher arity, so arity 27 is
the maximum supported product size: composing 27 producers needs only impls that
exist, while composing 28 producers needs a nonexistent impl and is rejected before
any sequence is produced. -/
theorem tuple_prepend_arity_cap_amended :
    (∀ k, k ∈ tuplePrependArities ↔ k ≤ 26) ∧
    composeSupported 27 = true ∧ composeSupported 28 = false :=
  ⟨mem_tuplePrependArities_iff, by decide, by decide⟩

/-- C5: composing a single producer yields that producer's element sequence
unchanged and unwrapped: the expansion is the left (plain-sequence) summand, never
the tuple-sequence summand, and the sequence equals the producer's own. -/
theorem single_producer_passthrough :
    ∀ (α : Type) (xs : List α) (b : Bool),
      cartesianMacroExpand [xs] b = some (Sum.inl xs) ∧ cartesian1 xs = xs :=
  fun _ _ _ => ⟨rfl, rfl⟩

/-- C6: for every arity k ≤ 25, prepending v onto a k-tuple t and then dropping the
first component of the result recovers t exactly, and the dropped component is v. -/
theorem tuple_prepend_roundtrip :
    ∀ (TT : Type) (Ts : List Type), Ts.length ≤ 25 →
      ∀ (t : Tup Ts) (v : TT), ((t.prepend v).rest = t ∧ (t.prepend v).fst = v) :=
  fun _ _ _ _ _ => ⟨rfl, rfl⟩

/-- Witness for C6 at the 1-tuple (2,) and value 9. -/
theorem tuple_prepend_roundtrip_witness :
    ((Tup.cons (2 : Nat) Tup.nil).prepend (9 : Nat)).rest = Tup.cons (2 : Nat) Tup.nil :=
  (tuple_prepend_roundtrip Nat [Nat] (by decide) (Tup.cons (2 : Nat) Tup.nil) 9).1

/-- C7: for more than two producers the flat product is the pairwise product of the
head with the recursively computed product of the tail, each item (t1, tail-tuple)
flattened by prepending t1; every such item's tail component has arity N-1. -/
theorem flat_product_refinement :
    ∀ (α : Type) (xs ys zs : List α) (rest : List (List α)),
      cartesianTuples xs ys (zs :: rest) =
        (cartesianPair xs (cartesianTuples ys zs rest)).map (fun p => prependL p.2 p.1) ∧
      ∀ p ∈ cartesianPair xs (cartesianTuples ys zs rest), p.2.length = rest.length + 2 := by
  intro α xs ys zs rest
  refine ⟨rfl, ?_⟩
  intro p hp
  simp only [cartesianPair, List.mem_flatMap, List.mem_map] at hp
  obtain ⟨a, _, t, ht, rfl⟩ := hp
  have h := length_mem_nestedLoopsSpec (ys :: zs :: rest) t
    (by rwa [← cartesianTuples_eq_nested])
  simpa using h

/-- Witness for C7: the item (0, [1, 2]) of the pairwise product of [0] with the
product of [1] and [2] has a tail tuple of arity 2. -/
theorem flat_product_refinement_witness :
    ((0 : Nat), [1, 2]).2.length = 0 + 2 :=
  (flat_product_refinement Nat [0] [1] [2] []).2 (0, [1, 2]) (by decide)

/-- C8: in the two-producer product, each item a of the left sequence triggers
exactly one fresh instantiation of the right producer (xs.length instantiations in
total, not one overall), and pairing every item b of that fresh view with a, in
order, yields exactly the pairwise product items. -/
theorem fresh_right_instantiation :
    ∀ (α β : Type) (xs : List α) (ys : List β),
      cartesianPairInstr xs (fun n => (ys, n + 1)) 0 = (cartesianPair xs ys, xs.length) := by
  intro α β xs ys
  simpa using cartesianPairInstr_pure ys xs 0

/-- C9: a trailing comma after the last producer is accepted and ignored: every rule
of the macro ends in an optional-comma matcher that binds nothing, so the expansion
with a trailing comma equals the one without, and the single producer 0..1 with a
trailing comma yields exactly the plain item 0. -/
theorem trailing_comma_ignored :
    (∀ (α : Type) (args : List (List α)) (b : Bool),
       cartesianMacroExpand args b = cartesianMacroExpand args false) ∧
    cartesianMacroExpand [List.range 1] true = some (Sum.inl [0]) ∧
    cartesianMacroExpand [List.range 1] true = cartesianMacroExpand [List.range 1] false :=
  ⟨fun _ _ _ => rfl, by decide, rfl⟩

/-- C10: the Tuple-Prepend family also has an instance for 26-tuples, prepending
onto a 26-tuple yields a 27-tuple, and the product combinator composes up to 27
producers (every prepend needed for 27 producers has an impl) while 27-tuples have
no impl themselves. -/
theorem tuple_prepend_arity26 :
    26 ∈ tuplePrependArities ∧
    (∀ (TT : Type) (Ts : List Type) (t : Tup Ts) (v : TT),
       Ts.length = 26 → (t.prepend v).arity = 27) ∧
    composeSupported 27 = true ∧ 27 ∉ tuplePrependArities := by
  refine ⟨by decide, ?_, by decide, by decide⟩
  intro TT Ts t v h
  simp [Tup.prepend, Tup.arity, h]

/-- Witness for C10: prepending 5 onto a concrete 26-tuple gives arity 27. -/
theorem tuple_prepend_arity26_witness :
    ((constTup 26).prepend (5 : Nat)).arity = 27 :=
  tuple_prepend_arity26.2.1 Nat (List.replicate 26 Nat) (constTup 26) 5 (by decide)
